import Mathlib

/-!
Verification of the directed-graph / maximum-flow core of an Advent of Code
2020 repository.  The repository implements the same data structure twice:

* a generic, hash-map based `DirectedGraph<T>` (crate `graph`, `src/lib.rs`)
  with operations `add_edge`, `remove_edge`, `dfs` and `max_flow`;
* a `usize`-indexed variant backed by `Vec<HashSet<usize>>`
  (`day16/src/graph.rs`) with the same operations.

The embedding below models the generic version with an association list
`List (V × List V)` (a `HashMap` whose iteration order is fixed to insertion
order; `HashSet` neighbour sets become duplicate-free lists in insertion
order), and the `usize` version with `List (List Nat)`.  Rust's unordered
iteration is implementation-defined; fixing it to insertion order realises
one legal behaviour of the source.  Panics of the `usize` version (vector
indexing out of bounds) are modelled by `Option`.  The `while` loops of
`dfs` and `max_flow` are modelled with explicit fuel; fuel exhaustion is
`none`, and theorems below show which fuel is sufficient (and that for
`max_flow` with `start = end` no fuel is sufficient, i.e. the source loops
forever).
-/

namespace AocGraph

variable {V : Type} [DecidableEq V]

/-- Adjacency structure of the generic `DirectedGraph<T>`: an association
list from vertex to its successor list. -/
abbrev Graph (V : Type) := List (V × List V)

/-- Lookup of a key's successor list, mirroring `HashMap::get`. -/
def lookupAdj : Graph V → V → Option (List V)
  | [], _ => none
  | (k, ns) :: rest, v => if k = v then some ns else lookupAdj rest v

/-- Successor list of a vertex; a missing key yields the empty list. -/
def nbrs (g : Graph V) (v : V) : List V :=
  (lookupAdj g v).getD []

/-- Edge relation of a graph: `has_edge g u v` iff `v` is a successor of `u`. -/
def has_edge (g : Graph V) (u v : V) : Prop :=
  v ∈ nbrs g u

instance (g : Graph V) (u v : V) : Decidable (has_edge g u v) := by
  unfold has_edge
  infer_instance

/-- Whether a vertex has an adjacency entry (a key in the hash map). -/
def hasKey (g : Graph V) (v : V) : Prop :=
  (lookupAdj g v).isSome

instance (g : Graph V) (v : V) : Decidable (hasKey g v) := by
  unfold hasKey
  infer_instance

/-- Rust `DirectedGraph::add_edge`: inserts `to` into the successor set of
`from`, creating the entry when absent (`entry(from).or_insert(empty)`). -/
def add_edge : Graph V → V → V → Graph V
  | [], u, v => [(u, [v])]
  | (k, ns) :: rest, u, v =>
      if k = u then (k, if v ∈ ns then ns else ns ++ [v]) :: rest
      else (k, ns) :: add_edge rest u v

/-- Rust `DirectedGraph::remove_edge`: removes `to` from the successor set of
`from` when the entry exists; otherwise a no-op. -/
def remove_edge : Graph V → V → V → Graph V
  | [], _, _ => []
  | (k, ns) :: rest, u, v =>
      if k = u then (k, ns.erase v) :: rest
      else (k, ns) :: remove_edge rest u v

/-- Scan of `neighbours.enumerate().skip(i).filter(unvisited).next()`:
first index `≥ i` (with its vertex) whose vertex is not yet visited. -/
def findNextAux (visited : Finset V) : List V → Nat → Option (Nat × V)
  | [], _ => none
  | n :: rest, j => if n ∉ visited then some (j, n) else findNextAux visited rest (j + 1)

/-- Resume the neighbour scan of the Rust `dfs` at index `i`. -/
def findNext (visited : Finset V) (ns : List V) (i : Nat) : Option (Nat × V) :=
  findNextAux visited (ns.drop i) i

/-- One execution of the explicit-stack loop of `DirectedGraph::dfs`, with
fuel.  The stack stores `(vertex, resume index)` frames, top first; `none`
is fuel exhaustion, `some r` means the loop returned `r`. -/
def dfsLoop (g : Graph V) (t : V) : Nat → List (V × Nat) → Finset V → Option (Option (List V))
  | 0, _, _ => none
  | _ + 1, [], _ => some none
  | fuel + 1, (v, i) :: rest, visited =>
      let visited' := insert v visited
      if v = t then some (some ((((v, i) :: rest).map Prod.fst).reverse))
      else
        match findNext visited' (nbrs g v) i with
        | some (j, w) => dfsLoop g t fuel ((w, 0) :: (v, j + 1) :: rest) visited'
        | none => dfsLoop g t fuel rest visited'

/-- All vertices occurring in the graph structure (keys and successors). -/
def allVerts (g : Graph V) : Finset V :=
  (g.map Prod.fst ++ g.flatMap Prod.snd).toFinset

/-- Fuel that always suffices for `dfsLoop` started on `[(s, 0)]` (proved
below): one unit per possible pop of every vertex frame plus slack. -/
def dfsFuel (g : Graph V) (s : V) : Nat :=
  (allVerts g).sum (fun u => (nbrs g u).length + 2) + (nbrs g s).length + 2

/-- Rust `DirectedGraph::dfs`: explicit-stack depth-first search from `s` for
`t`.  The fuel `dfsFuel g s` is proved sufficient, so the `Option.join`
never conflates fuel exhaustion with a failed search. -/
def dfs (g : Graph V) (s t : V) : Option (List V) :=
  (dfsLoop g t (dfsFuel g s) [(s, 0)] ∅).join

/-- Edges of a path, as consecutive pairs (`tuple_windows`). -/
def pathEdges (p : List V) : List (V × V) :=
  p.zip p.tail

/-- Processing of one path edge `(u, v)` inside the `max_flow` loop, on the
pair (residual graph, flow graph): `flow.add_edge(u,v)`,
`flow.remove_edge(v,u)`, `graph.add_edge(v,u)`, `graph.remove_edge(u,v)`. -/
def augmentStep (st : Graph V × Graph V) (e : V × V) : Graph V × Graph V :=
  (remove_edge (add_edge st.1 e.2 e.1) e.1 e.2,
   remove_edge (add_edge st.2 e.1 e.2) e.2 e.1)

/-- The augmentation `while` loop of `max_flow`, with fuel; `none` is fuel
exhaustion, `some f` the flow accumulated when no augmenting path is left. -/
def max_flow_loop (s e : V) : Nat → Graph V → Graph V → Option (Graph V)
  | 0, _, _ => none
  | fuel + 1, residual, flow =>
      match dfs residual s e with
      | none => some flow
      | some p =>
          let st := (pathEdges p).foldl augmentStep (residual, flow)
          max_flow_loop s e fuel st.1 st.2

/-- Final filtering step of `max_flow`: every key keeps only the successors
that are edges of the original graph. -/
def flowFilter (g : Graph V) (f : Graph V) : Graph V :=
  f.map (fun kv => (kv.1, kv.2.filter (fun j => decide (has_edge g kv.1 j))))

/-- Rust `DirectedGraph::max_flow`: Ford-Fulkerson style augmentation starting
from a clone of the graph and an empty flow, then filtering against the
original edges.  The fuel `(nbrs g s).length + 1` is proved sufficient
whenever `s ≠ e`; `none` models non-termination of the source loop. -/
def max_flow (g : Graph V) (s e : V) : Option (Graph V) :=
  (max_flow_loop s e ((nbrs g s).length + 1) g []).map (flowFilter g)

/-- Out-degree of a vertex. -/
def outDeg (g : Graph V) (v : V) : Nat :=
  (nbrs g v).length

/-- All edges of a graph as a list of pairs. -/
def edgeList (g : Graph V) : List (V × V) :=
  g.flatMap (fun kv => kv.2.map (fun v => (kv.1, v)))

/-- In-degree of a vertex: number of edges ending at it. -/
def inDeg (g : Graph V) (v : V) : Nat :=
  (edgeList g).countP (fun e => decide (e.2 = v))

/-- Number of edges leaving a vertex, counted over the edge list. -/
def outCount (g : Graph V) (v : V) : Nat :=
  (edgeList g).countP (fun e => decide (e.1 = v))

/-- Equality test the Rust `#[derive(PartialEq)]` performs on
`DirectedGraph`: equality of key sets, and for each key equality of the
successor sets (order-insensitive, but an absent key is distinguished from
a key with an empty set). -/
def rust_eq (g1 g2 : Graph V) : Prop :=
  (∀ k, hasKey g1 k ↔ hasKey g2 k) ∧ ∀ k, (nbrs g1 k).toFinset = (nbrs g2 k).toFinset

/-- Adjacency-state equivalence in the sense of the specification, where an
absent key is equivalent to an empty successor set: equality of the edge
relations. -/
def adjEquiv (g1 g2 : Graph V) : Prop :=
  ∀ u v, has_edge g1 u v ↔ has_edge g2 u v

/-- A (not necessarily simple) directed path from `s` to `t`: a nonempty
vertex sequence starting at `s`, ending at `t`, each consecutive pair an
edge. -/
def IsPathFrom (g : Graph V) (s t : V) (p : List V) : Prop :=
  p.head? = some s ∧ p.getLast? = some t ∧ p.Chain' (has_edge g)

/-- Existence of a directed path between two vertices. -/
def Reachable (g : Graph V) (s t : V) : Prop :=
  ∃ p, IsPathFrom g s t p

/-- Two paths are edge-disjoint when no consecutive pair occurs in both. -/
def EdgeDisjoint (p q : List V) : Prop :=
  ∀ e, e ∈ pathEdges p → e ∉ pathEdges q

/-- The edges of `f` decompose into the pairwise edge-disjoint simple paths
`ps`, each leading from `s` to `t`, and the paths cover exactly the edges
of `f`. -/
def Decomposes (f : Graph V) (s t : V) (ps : List (List V)) : Prop :=
  (∀ p ∈ ps, IsPathFrom f s t p ∧ p.Nodup) ∧
  ps.Pairwise EdgeDisjoint ∧
  ∀ e, e ∈ edgeList f ↔ ∃ p ∈ ps, e ∈ pathEdges p

/-- Termination of the `max_flow` augmentation loop on graph `g` from `s`
to `e`: some amount of fuel completes the loop. -/
def MaxFlowTerminates (g : Graph V) (s e : V) : Prop :=
  ∃ n f, max_flow_loop s e n g [] = some f

/-- Shape invariant of one stack frame list of the `dfs` loop.  The `above`
argument is the vertex of the frame directly on top of the current head
(`none` for the top of the stack).  For each frame `(v, i)`: the resume
index is within bounds, every neighbour of `v` before index `i` is visited
or is the frame above, and a non-top frame is itself visited with the frame
above it one of its neighbours. -/
def FramesOK (g : Graph V) (visited : Finset V) : Option V → List (V × Nat) → Prop
  | _, [] => True
  | above, (v, i) :: rest =>
      i ≤ (nbrs g v).length ∧
      (∀ u ∈ (nbrs g v).take i, u ∈ visited ∨ above = some u) ∧
      (∀ b, above = some b → b ∈ nbrs g v ∧ v ∈ visited) ∧
      FramesOK g visited (some v) rest

/-- Full loop invariant of `dfs`: the frame shape invariant, the bottom
frame is the start vertex, stack vertices are distinct, every visited
vertex no longer on the stack has all its neighbours visited, and the
target has never been popped. -/
structure DfsInv (g : Graph V) (s t : V) (stack : List (V × Nat)) (visited : Finset V) : Prop where
  frames : FramesOK g visited none stack
  bottom : ∀ fr ∈ stack.getLast?, fr.1 = s
  nodup : (stack.map Prod.fst).Nodup
  closure : ∀ u ∈ visited, u ∉ stack.map Prod.fst → ∀ w ∈ nbrs g u, w ∈ visited
  no_target : t ∉ visited

/-- Combined weight of the pending stack frames: remaining neighbour scan
length of each frame, plus one for the pop itself. -/
def stackWeight (g : Graph V) (stack : List (V × Nat)) : Nat :=
  (stack.map (fun vi => (nbrs g vi.1).length + 1 - vi.2)).sum

/-- Vertices of the graph neither visited nor on the stack. -/
def unseen (g : Graph V) (stack : List (V × Nat)) (visited : Finset V) : Finset V :=
  allVerts g \ (visited ∪ (stack.map Prod.fst).toFinset)

/-- Termination measure of the `dfs` loop: pending frame weight plus the
full weight of every vertex that might still be freshly pushed. -/
def dfsMeasure (g : Graph V) (stack : List (V × Nat)) (visited : Finset V) : Nat :=
  stackWeight g stack + (unseen g stack visited).sum (fun u => (nbrs g u).length + 2)

end AocGraph

namespace AocUGraph

/-- The `usize`-indexed `DirectedGraph` of `day16/src/graph.rs`:
`Vec<HashSet<usize>>`, modelled as a list of duplicate-free lists. -/
abbrev UGraph := List (List Nat)

/-- Rust `DirectedGraph::new(n_vertices)`. -/
def unew (n : Nat) : UGraph :=
  List.replicate n []

/-- Rust `add_edge`: `self.adjancency[from].insert(to)`.  Indexing a `Vec` out
of bounds panics, modelled by `none`. -/
def uadd_edge (g : UGraph) (a b : Nat) : Option UGraph :=
  if a < g.length then
    some (g.set a (let ns := g.getD a []; if b ∈ ns then ns else ns ++ [b]))
  else none

/-- Rust `remove_edge`: `self.adjancency[from].remove(&to)`, panicking (`none`)
when `from` is out of bounds. -/
def uremove_edge (g : UGraph) (a b : Nat) : Option UGraph :=
  if a < g.length then some (g.set a ((g.getD a []).erase b)) else none

end AocUGraph

namespace AocGraph

/-- The graph of the repository's `test_max_flow` test: edges
`0→1, 0→2, 1→3, 1→4, 2→3, 3→5, 4→5`, in insertion order. -/
def testGraph : Graph Nat :=
  [(0, [1, 2]), (1, [3, 4]), (2, [3]), (3, [5]), (4, [5])]

/-- A graph with the antiparallel pair `1→2` and `2→1` besides
`0→1, 0→2, 1→3, 2→3`; the vertex sets make `dfs` pick `0,1,2,3` first. -/
def antiGraph : Graph Nat :=
  [(0, [1, 2]), (1, [2, 3]), (2, [1, 3])]

/-- A graph on which `max_flow 0 5` cancels all flow through vertex `2`,
leaving key `2` with an empty successor set in the result:
edges `0→1, 0→3, 1→2, 1→4, 2→3, 3→5, 4→5`. -/
def cancelGraph : Graph Nat :=
  [(0, [1, 3]), (1, [2, 4]), (2, [3]), (3, [5]), (4, [5])]

/-- The graph of the repository's `test_dfs` test: `0→1, 1→2, 1→3, 3→4`. -/
def dfsTestGraph : Graph Nat :=
  [(0, [1]), (1, [2, 3]), (3, [4])]

/-- Value of `max_flow antiGraph 0 3` (established below by computation). -/
def antiFlowResult : Graph Nat :=
  [(0, [1, 2]), (1, [3]), (2, [3, 1])]

/-- Value of `max_flow cancelGraph 0 5` (established below by computation). -/
def cancelFlowResult : Graph Nat :=
  [(0, [1, 3]), (1, [4]), (2, []), (3, [5]), (4, [5])]

/-- Value of `max_flow testGraph 0 5` (established below by computation). -/
def testFlowResult : Graph Nat :=
  [(0, [1, 2]), (1, [4]), (3, [5]), (2, [3]), (4, [5])]

end AocGraph

namespace AocGraph

variable {V : Type} [DecidableEq V]

theorem nbrs_nil (v : V) : nbrs ([] : Graph V) v = [] := rfl

theorem nbrs_add_edge_self (g : Graph V) (u v : V) :
    nbrs (add_edge g u v) u = if v ∈ nbrs g u then nbrs g u else nbrs g u ++ [v] := by
  induction g with
  | nil => simp [add_edge, nbrs, lookupAdj]
  | cons kv rest ih =>
      obtain ⟨k, ns⟩ := kv
      by_cases hk : k = u
      · subst hk
        simp [add_edge, nbrs, lookupAdj]
      · simpa [add_edge, hk, nbrs, lookupAdj] using ih

theorem nbrs_add_edge_ne (g : Graph V) (u v w : V) (h : w ≠ u) :
    nbrs (add_edge g u v) w = nbrs g w := by
  induction g with
  | nil => simp [add_edge, nbrs, lookupAdj, Ne.symm h]
  | cons kv rest ih =>
      obtain ⟨k, ns⟩ := kv
      by_cases hk : k = u
      · subst hk
        simp [add_edge, nbrs, lookupAdj, Ne.symm h]
      · by_cases hw : k = w
        · subst hw
          simp [add_edge, hk, nbrs, lookupAdj]
        · simpa [add_edge, hk, hw, nbrs, lookupAdj] using ih

theorem mem_nbrs_add_edge (g : Graph V) (u v x w : V) :
    w ∈ nbrs (add_edge g u v) x ↔ (x = u ∧ w = v) ∨ w ∈ nbrs g x := by
  by_cases hx : x = u
  · subst hx
    rw [nbrs_add_edge_self]
    split_ifs with hv
    · constructor
      · intro h; exact Or.inr h
      · rintro (⟨-, rfl⟩ | h)
        · exact hv
        · exact h
    · simp only [List.mem_append, List.mem_singleton]
      tauto
  · rw [nbrs_add_edge_ne g u v x hx]
    simp [hx]

theorem nbrs_remove_edge_self (g : Graph V) (u v : V) :
    nbrs (remove_edge g u v) u = (nbrs g u).erase v := by
  induction g with
  | nil => simp [remove_edge, nbrs, lookupAdj]
  | cons kv rest ih =>
      obtain ⟨k, ns⟩ := kv
      by_cases hk : k = u
      · subst hk
        simp [remove_edge, nbrs, lookupAdj]
      · simpa [remove_edge, hk, nbrs, lookupAdj] using ih

theorem nbrs_remove_edge_ne (g : Graph V) (u v w : V) (h : w ≠ u) :
    nbrs (remove_edge g u v) w = nbrs g w := by
  induction g with
  | nil => simp [remove_edge]
  | cons kv rest ih =>
      obtain ⟨k, ns⟩ := kv
      by_cases hk : k = u
      · subst hk
        simp [remove_edge, nbrs, lookupAdj, Ne.symm h]
      · by_cases hw : k = w
        · subst hw
          simp [remove_edge, hk, nbrs, lookupAdj]
        · simpa [remove_edge, hk, hw, nbrs, lookupAdj] using ih

theorem add_edge_idem (g : Graph V) (u v : V) :
    add_edge (add_edge g u v) u v = add_edge g u v := by
  induction g with
  | nil => simp [add_edge]
  | cons kv rest ih =>
      obtain ⟨k, ns⟩ := kv
      by_cases hk : k = u
      · subst hk
        by_cases hv : v ∈ ns
        · simp [add_edge, hv]
        · simp [add_edge, hv]
      · simp [add_edge, hk, ih]

theorem remove_edge_not_hasKey (g : Graph V) (u v : V) (h : ¬ hasKey g u) :
    remove_edge g u v = g := by
  induction g with
  | nil => rfl
  | cons kv rest ih =>
      obtain ⟨k, ns⟩ := kv
      by_cases hk : k = u
      · exact absurd (by simp [hasKey, lookupAdj, hk]) h
      · have : ¬ hasKey rest u := by
          simpa [hasKey, lookupAdj, hk] using h
        simp [remove_edge, hk, ih this]

theorem lookupAdj_flowFilter (g f : Graph V) (u : V) :
    lookupAdj (flowFilter g f) u
      = (lookupAdj f u).map (fun ns => ns.filter (fun j => decide (has_edge g u j))) := by
  induction f with
  | nil => rfl
  | cons kv rest ih =>
      obtain ⟨k, ns⟩ := kv
      by_cases hk : k = u
      · subst hk
        simp [flowFilter, lookupAdj]
      · simpa [flowFilter, lookupAdj, hk] using ih

theorem mem_nbrs_flowFilter (g f : Graph V) (u w : V) :
    w ∈ nbrs (flowFilter g f) u ↔ w ∈ nbrs f u ∧ has_edge g u w := by
  unfold nbrs
  rw [lookupAdj_flowFilter]
  cases lookupAdj f u with
  | none => simp
  | some ns => simp [List.mem_filter]

theorem findNextAux_some {visited : Finset V} :
    ∀ (l : List V) (j0 j : Nat) (w : V), findNextAux visited l j0 = some (j, w) →
    ∃ l1 l2, l = l1 ++ w :: l2 ∧ (∀ u ∈ l1, u ∈ visited) ∧ w ∉ visited ∧ j = j0 + l1.length := by
  intro l
  induction l with
  | nil => intro j0 j w h; simp [findNextAux] at h
  | cons n rest ih =>
      intro j0 j w h
      by_cases hn : n ∉ visited
      · simp only [findNextAux, if_pos hn, Option.some.injEq, Prod.mk.injEq] at h
        exact ⟨[], rest, by simp [h.1, h.2], by simp, h.2 ▸ hn, by simp [h.1]⟩
      · simp only [findNextAux, if_neg hn] at h
        obtain ⟨l1, l2, hl, hvis, hw, hj⟩ := ih (j0 + 1) j w h
        refine ⟨n :: l1, l2, by simp [hl], ?_, hw, by simp [hj]; omega⟩
        intro u hu
        rcases List.mem_cons.mp hu with rfl | hu
        · exact not_not.mp hn
        · exact hvis u hu

theorem findNextAux_none {visited : Finset V} :
    ∀ (l : List V) (j0 : Nat), findNextAux visited l j0 = none → ∀ u ∈ l, u ∈ visited := by
  intro l
  induction l with
  | nil => intro _ _ u hu; simp at hu
  | cons n rest ih =>
      intro j0 h u hu
      by_cases hn : n ∉ visited
      · simp [findNextAux, if_pos hn] at h
      · simp only [findNextAux, if_neg hn] at h
        rcases List.mem_cons.mp hu with rfl | hu
        · exact not_not.mp hn
        · exact ih (j0 + 1) h u hu

theorem findNext_none {visited : Finset V} {ns : List V} {i : Nat}
    (h : findNext visited ns i = none) : ∀ u ∈ ns.drop i, u ∈ visited :=
  findNextAux_none (ns.drop i) i h

theorem findNext_some {visited : Finset V} {ns : List V} {i j : Nat} {w : V}
    (h : findNext visited ns i = some (j, w)) :
    i ≤ j ∧ j < ns.length ∧ w ∉ visited ∧ w ∈ ns ∧
      ns.take (j + 1) = ns.take i ++ ((ns.drop i).takeWhile (fun u => decide (u ∈ visited))) ++ [w] ∧
      (∀ u ∈ (ns.drop i).takeWhile (fun u => decide (u ∈ visited)), u ∈ visited) := by
  obtain ⟨l1, l2, hl, hvis, hw, hj⟩ := findNextAux_some (ns.drop i) i j w h
  have hile : i ≤ ns.length := by
    by_contra hgt
    rw [List.drop_eq_nil_of_le (by omega)] at hl
    exact absurd hl.symm (by simp)
  have hlen : ns.length - i = l1.length + 1 + l2.length := by
    have := congrArg List.length hl
    simp [List.length_drop] at this
    omega
  have htw : (ns.drop i).takeWhile (fun u => decide (u ∈ visited)) = l1 := by
    rw [hl]
    have : ∀ l1' : List V, (∀ u ∈ l1', u ∈ visited) →
        (l1' ++ w :: l2).takeWhile (fun u => decide (u ∈ visited)) = l1' := by
      intro l1'
      induction l1' with
      | nil => intro _; simp [List.takeWhile, hw]
      | cons a r ihr =>
          intro ha
          have : a ∈ visited := ha a (by simp)
          simp [List.takeWhile, this, ihr (fun u hu => ha u (by simp [hu]))]
    exact this l1 hvis
  refine ⟨by omega, by omega, hw, ?_, ?_, ?_⟩
  · have : w ∈ ns.drop i := by rw [hl]; simp
    exact List.mem_of_mem_drop this
  · rw [htw]
    have h1 : ns.take (j + 1) = ns.take i ++ (ns.drop i).take (l1.length + 1) := by
      have h2 : j + 1 = i + (l1.length + 1) := by omega
      rw [h2, List.take_add]
    rw [h1, hl]
    rw [List.take_append_eq_append_take]
    simp [List.take_succ_cons]
  · rw [htw]; exact hvis

theorem framesOK_mono {g : Graph V} {visited visited' : Finset V} (hsub : visited ⊆ visited') :
    ∀ (ab : Option V) (l : List (V × Nat)), FramesOK g visited ab l → FramesOK g visited' ab l := by
  intro ab l
  induction l generalizing ab with
  | nil => intro h; trivial
  | cons fr rest ih =>
      obtain ⟨v, i⟩ := fr
      rintro ⟨hk, hcov, hab, hrest⟩
      refine ⟨hk, ?_, ?_, ih (some v) hrest⟩
      · intro u hu
        rcases hcov u hu with h1 | h1
        · exact Or.inl (hsub h1)
        · exact Or.inr h1
      · intro b hb
        obtain ⟨h1, h2⟩ := hab b hb
        exact ⟨h1, hsub h2⟩

theorem framesOK_pop {g : Graph V} {visited : Finset V} {v : V} :
    ∀ l : List (V × Nat), FramesOK g visited (some v) l → FramesOK g (insert v visited) none l := by
  intro l h
  cases l with
  | nil => trivial
  | cons fr rest =>
      obtain ⟨a, k⟩ := fr
      obtain ⟨hk, hcov, hab, hrest⟩ := h
      refine ⟨hk, ?_, ?_, framesOK_mono (Finset.subset_insert v visited) (some a) rest hrest⟩
      · intro u hu
        rcases hcov u hu with h1 | h1
        · exact Or.inl (Finset.mem_insert_of_mem h1)
        · refine Or.inl ?_
          obtain rfl : v = u := by simpa using h1
          exact Finset.mem_insert_self v visited
      · intro b hb
        simp at hb

theorem framesOK_vertices_visited {g : Graph V} {visited : Finset V} {b : V} :
    ∀ l : List (V × Nat), FramesOK g visited (some b) l →
    ∀ x ∈ l.map Prod.fst, x ∈ visited := by
  intro l
  induction l generalizing b with
  | nil => intro _ x hx; simp at hx
  | cons fr rest ih =>
      obtain ⟨v, i⟩ := fr
      rintro ⟨hk, hcov, hab, hrest⟩ x hx
      rcases List.mem_cons.mp hx with rfl | hx
      · exact (hab b rfl).2
      · exact ih hrest x hx

theorem framesOK_chain {g : Graph V} {visited : Finset V} :
    ∀ (l : List (V × Nat)) (ab : Option V), FramesOK g visited ab l →
    List.Chain' (fun a b => a ∈ nbrs g b) (l.map Prod.fst) := by
  intro l
  induction l with
  | nil => intro _ _; simp
  | cons fr rest ih =>
      obtain ⟨v, i⟩ := fr
      rintro ab ⟨hk, hcov, hab, hrest⟩
      rw [List.map_cons]
      cases rest with
      | nil => simp
      | cons fr2 rest2 =>
          obtain ⟨a, k⟩ := fr2
          obtain ⟨hk2, hcov2, hab2, hrest2⟩ := hrest
          refine List.Chain'.cons ?_ (ih (some v) ⟨hk2, hcov2, hab2, hrest2⟩)
          exact (hab2 v rfl).1

theorem dfsInv_init (g : Graph V) (s t : V) : DfsInv g s t [(s, 0)] ∅ := by
  refine ⟨⟨by simp, by simp, by simp, trivial⟩, by simp, by simp, by simp, by simp⟩

theorem dfsInv_drop {g : Graph V} {s t v : V} {i : Nat} {rest : List (V × Nat)}
    {visited : Finset V}
    (inv : DfsInv g s t ((v, i) :: rest) visited) (hvt : v ≠ t)
    (hfn : findNext (insert v visited) (nbrs g v) i = none) :
    DfsInv g s t rest (insert v visited) := by
  obtain ⟨hk, hcov, hab, hrest⟩ := inv.frames
  refine ⟨framesOK_pop rest hrest, ?_, ?_, ?_, ?_⟩
  · intro fr hfr
    cases rest with
    | nil => simp at hfr
    | cons fr2 rest2 =>
        refine inv.bottom fr ?_
        rw [List.getLast?_cons_cons]
        exact hfr
  · have := inv.nodup
    rw [List.map_cons] at this
    exact (List.nodup_cons.mp this).2
  · intro u hu hustack w hw
    by_cases huv : u = v
    · subst huv
      rcases List.mem_append.mp ((List.take_append_drop i (nbrs g u)).symm ▸ hw) with h1 | h1
      · rcases hcov w h1 with h2 | h2
        · exact Finset.mem_insert_of_mem h2
        · simp at h2
      · exact findNext_none hfn w h1
    · have huvis : u ∈ visited := by
        rcases Finset.mem_insert.mp hu with h | h
        · exact absurd h huv
        · exact h
      have hnotstack : u ∉ ((v, i) :: rest).map Prod.fst := by
        rw [List.map_cons]
        intro hmem
        rcases List.mem_cons.mp hmem with h | h
        · exact huv h
        · exact hustack h
      exact Finset.mem_insert_of_mem (inv.closure u huvis hnotstack w hw)
  · intro hmem
    rcases Finset.mem_insert.mp hmem with h | h
    · exact hvt h.symm
    · exact inv.no_target h

theorem dfsInv_push {g : Graph V} {s t v w : V} {i j : Nat} {rest : List (V × Nat)}
    {visited : Finset V}
    (inv : DfsInv g s t ((v, i) :: rest) visited) (hvt : v ≠ t)
    (hfn : findNext (insert v visited) (nbrs g v) i = some (j, w)) :
    DfsInv g s t ((w, 0) :: (v, j + 1) :: rest) (insert v visited) := by
  obtain ⟨hk, hcov, hab, hrest⟩ := inv.frames
  obtain ⟨hij, hjlen, hwvis, hwmem, htake, hmid⟩ := findNext_some hfn
  have hrestvis : ∀ x ∈ rest.map Prod.fst, x ∈ visited :=
    framesOK_vertices_visited rest hrest
  refine ⟨?_, ?_, ?_, ?_, ?_⟩
  · refine ⟨by simp, by simp, by simp, ?_, ?_, ?_, ?_⟩
    · omega
    · intro u hu
      rw [htake] at hu
      rcases List.mem_append.mp hu with h1 | h1
      · rcases List.mem_append.mp h1 with h2 | h2
        · rcases hcov u h2 with h3 | h3
          · exact Or.inl (Finset.mem_insert_of_mem h3)
          · simp at h3
        · exact Or.inl (hmid u h2)
      · obtain rfl : u = w := by simpa using h1
        exact Or.inr rfl
    · intro b hb
      obtain rfl : w = b := by simpa using hb
      exact ⟨hwmem, Finset.mem_insert_self v visited⟩
    · exact framesOK_mono (Finset.subset_insert v visited) (some v) rest hrest
  · intro fr hfr
    cases rest with
    | nil =>
        rw [List.getLast?_cons_cons] at hfr
        obtain rfl : (v, j + 1) = fr := by simpa using hfr
        exact inv.bottom (v, i) (by simp)
    | cons fr2 rest2 =>
        refine inv.bottom fr ?_
        rw [List.getLast?_cons_cons]
        rw [List.getLast?_cons_cons, List.getLast?_cons_cons] at hfr
        exact hfr
  · have hnd := inv.nodup
    rw [List.map_cons] at hnd
    obtain ⟨hvn, hrn⟩ := List.nodup_cons.mp hnd
    show (w :: v :: rest.map Prod.fst).Nodup
    refine List.nodup_cons.mpr ⟨?_, List.nodup_cons.mpr ⟨hvn, hrn⟩⟩
    intro hmem
    rcases List.mem_cons.mp hmem with h | h
    · exact hwvis (h ▸ Finset.mem_insert_self v visited)
    · exact hwvis (Finset.mem_insert_of_mem (hrestvis w h))
  · intro u hu hustack x hx
    by_cases huv : u = v
    · subst huv
      exact absurd (by simp) hustack
    · have huvis : u ∈ visited := by
        rcases Finset.mem_insert.mp hu with h | h
        · exact absurd h huv
        · exact h
      have hnotstack : u ∉ ((v, i) :: rest).map Prod.fst := by
        rw [List.map_cons]
        intro hmem
        rcases List.mem_cons.mp hmem with h | h
        · exact huv h
        · exact hustack (by simp [h])
      exact Finset.mem_insert_of_mem (inv.closure u huvis hnotstack x hx)
  · intro hmem
    rcases Finset.mem_insert.mp hmem with h | h
    · exact hvt h.symm
    · exact inv.no_target h

theorem lookupAdj_mem {g : Graph V} {v : V} {ns : List V} (h : lookupAdj g v = some ns) :
    (v, ns) ∈ g := by
  induction g with
  | nil => simp [lookupAdj] at h
  | cons kv rest ih =>
      obtain ⟨k, ns2⟩ := kv
      by_cases hk : k = v
      · subst hk
        simp [lookupAdj] at h
        simp [h]
      · simp only [lookupAdj, if_neg hk] at h
        exact List.mem_cons_of_mem _ (ih h)

theorem mem_allVerts_of_mem_nbrs {g : Graph V} {v w : V} (h : w ∈ nbrs g v) :
    w ∈ allVerts g := by
  unfold nbrs at h
  cases hlk : lookupAdj g v with
  | none => rw [hlk] at h; simp at h
  | some ns =>
      rw [hlk] at h
      simp only [Option.getD_some] at h
      have hmem := lookupAdj_mem hlk
      simp only [allVerts, List.mem_toFinset, List.mem_append, List.mem_flatMap]
      exact Or.inr ⟨(v, ns), hmem, h⟩

theorem stackWeight_cons (g : Graph V) (v : V) (i : Nat) (rest : List (V × Nat)) :
    stackWeight g ((v, i) :: rest) = ((nbrs g v).length + 1 - i) + stackWeight g rest := by
  simp [stackWeight]

theorem unseen_drop_eq (g : Graph V) (v : V) (i : Nat) (rest : List (V × Nat))
    (visited : Finset V) :
    unseen g rest (insert v visited) = unseen g ((v, i) :: rest) visited := by
  unfold unseen
  ext x
  simp only [Finset.mem_sdiff, Finset.mem_union, Finset.mem_insert, List.mem_toFinset,
    List.map_cons, List.mem_cons]
  tauto

theorem measure_drop {g : Graph V} {v : V} {i : Nat} (rest : List (V × Nat))
    (visited : Finset V) (hi : i ≤ (nbrs g v).length) :
    dfsMeasure g rest (insert v visited) + 1 ≤ dfsMeasure g ((v, i) :: rest) visited := by
  unfold dfsMeasure
  rw [unseen_drop_eq g v i rest visited, stackWeight_cons]
  omega

theorem unseen_push_eq (g : Graph V) (v w : V) (i j : Nat) (rest : List (V × Nat))
    (visited : Finset V) :
    unseen g ((w, 0) :: (v, j + 1) :: rest) (insert v visited)
      = (unseen g ((v, i) :: rest) visited).erase w := by
  unfold unseen
  ext x
  simp only [Finset.mem_erase, Finset.mem_sdiff, Finset.mem_union, Finset.mem_insert,
    List.mem_toFinset, List.map_cons, List.mem_cons]
  tauto

theorem measure_push {g : Graph V} {v w : V} {i j : Nat} {rest : List (V × Nat)}
    {visited : Finset V}
    (hij : i ≤ j) (hjlen : j < (nbrs g v).length)
    (hw : w ∈ nbrs g v) (hwvis : w ∉ insert v visited)
    (hwrest : w ∉ rest.map Prod.fst) :
    dfsMeasure g ((w, 0) :: (v, j + 1) :: rest) (insert v visited) + 1 ≤
      dfsMeasure g ((v, i) :: rest) visited := by
  have hwin : w ∈ unseen g ((v, i) :: rest) visited := by
    simp only [unseen, Finset.mem_sdiff, Finset.mem_union, Finset.mem_insert,
      List.mem_toFinset, List.map_cons, List.mem_cons]
    refine ⟨mem_allVerts_of_mem_nbrs hw, ?_⟩
    intro hcon
    rcases hcon with h | h
    · exact hwvis (Finset.mem_insert_of_mem h)
    · rcases h with h | h
      · exact hwvis (h ▸ Finset.mem_insert_self v visited)
      · exact hwrest h
  have hsum : ((unseen g ((v, i) :: rest) visited).erase w).sum
        (fun u => (nbrs g u).length + 2) + ((nbrs g w).length + 2)
      = (unseen g ((v, i) :: rest) visited).sum (fun u => (nbrs g u).length + 2) := by
    simpa using Finset.sum_erase_add (unseen g ((v, i) :: rest) visited)
      (fun u => (nbrs g u).length + 2) hwin
  unfold dfsMeasure
  rw [unseen_push_eq g v w i j rest visited, stackWeight_cons, stackWeight_cons,
    stackWeight_cons]
  omega

theorem dfsLoop_no_exhaust {g : Graph V} {s t : V} :
    ∀ (fuel : Nat) (stack : List (V × Nat)) (visited : Finset V),
      DfsInv g s t stack visited → dfsMeasure g stack visited < fuel →
      (dfsLoop g t fuel stack visited).isSome := by
  intro fuel
  induction fuel with
  | zero => intro stack visited _ hm; omega
  | succ n ih =>
      intro stack visited inv hm
      match stack with
      | [] => simp [dfsLoop]
      | (v, i) :: rest =>
          simp only [dfsLoop]
          by_cases hvt : v = t
          · simp [hvt]
          · rw [if_neg hvt]
            cases hfn : findNext (insert v visited) (nbrs g v) i with
            | none =>
                apply ih _ _ (dfsInv_drop inv hvt hfn)
                have hd := measure_drop rest visited inv.frames.1
                omega
            | some jw =>
                obtain ⟨j, w⟩ := jw
                apply ih _ _ (dfsInv_push inv hvt hfn)
                obtain ⟨hij, hjlen, hwvis, hwmem, -, -⟩ := findNext_some hfn
                have hwrest : w ∉ rest.map Prod.fst := by
                  intro hcon
                  exact hwvis (Finset.mem_insert_of_mem
                    (framesOK_vertices_visited rest inv.frames.2.2.2 w hcon))
                have hp := measure_push hij hjlen hwmem hwvis hwrest
                omega

theorem dfsMeasure_init_lt (g : Graph V) (s : V) :
    dfsMeasure g [(s, 0)] ∅ < dfsFuel g s := by
  have hsub : unseen g [(s, 0)] ∅ ⊆ allVerts g := by
    intro x hx
    simp only [unseen, Finset.mem_sdiff] at hx
    exact hx.1
  have hle : (unseen g [(s, 0)] ∅).sum (fun u => (nbrs g u).length + 2)
      ≤ (allVerts g).sum (fun u => (nbrs g u).length + 2) :=
    Finset.sum_le_sum_of_subset hsub
  unfold dfsMeasure dfsFuel
  rw [stackWeight_cons]
  simp only [stackWeight, List.map_nil, List.sum_nil]
  omega

theorem dfsLoop_init_isSome (g : Graph V) (s t : V) :
    (dfsLoop g t (dfsFuel g s) [(s, 0)] ∅).isSome :=
  dfsLoop_no_exhaust (dfsFuel g s) [(s, 0)] ∅ (dfsInv_init g s t) (dfsMeasure_init_lt g s)

theorem dfsLoop_sound {g : Graph V} {s t : V} :
    ∀ (fuel : Nat) (stack : List (V × Nat)) (visited : Finset V) (p : List V),
      DfsInv g s t stack visited →
      dfsLoop g t fuel stack visited = some (some p) →
      p.head? = some s ∧ p.getLast? = some t ∧ p.Nodup ∧ p.Chain' (has_edge g) := by
  intro fuel
  induction fuel with
  | zero => intro stack visited p _ h; simp [dfsLoop] at h
  | succ n ih =>
      intro stack visited p inv h
      match stack with
      | [] => simp [dfsLoop] at h
      | (v, i) :: rest =>
          simp only [dfsLoop] at h
          by_cases hvt : v = t
          · rw [if_pos hvt] at h
            obtain rfl : (((v, i) :: rest).map Prod.fst).reverse = p := by simpa using h
            refine ⟨?_, ?_, ?_, ?_⟩
            · rw [List.head?_reverse]
              have hne : ((v, i) :: rest).getLast?.isSome := by
                rw [List.getLast?_isSome]
                simp
              obtain ⟨fr, hfr⟩ := Option.isSome_iff_exists.mp hne
              rw [List.getLast?_map, hfr]
              simpa using inv.bottom fr hfr
            · rw [List.getLast?_reverse]
              simp [hvt]
            · rw [List.nodup_reverse]
              exact inv.nodup
            · rw [List.chain'_reverse]
              exact framesOK_chain ((v, i) :: rest) none inv.frames
          · rw [if_neg hvt] at h
            cases hfn : findNext (insert v visited) (nbrs g v) i with
            | none =>
                rw [hfn] at h
                exact ih _ _ p (dfsInv_drop inv hvt hfn) h
            | some jw =>
                obtain ⟨j, w⟩ := jw
                rw [hfn] at h
                exact ih _ _ p (dfsInv_push inv hvt hfn) h

theorem chain_closed {g : Graph V} {S : Finset V}
    (hS : ∀ u ∈ S, ∀ w ∈ nbrs g u, w ∈ S) :
    ∀ (p : List V) (x : V), p.Chain' (has_edge g) → p.head? = some x → x ∈ S →
      ∀ y ∈ p, y ∈ S := by
  intro p
  induction p with
  | nil => intro x _ h; simp at h
  | cons a rest ih =>
      intro x hchain hhead hx y hy
      obtain rfl : a = x := by simpa using hhead
      cases rest with
      | nil =>
          obtain rfl : y = a := by simpa using hy
          exact hx
      | cons b rest2 =>
          have hab : has_edge g a b := (List.chain'_cons.mp hchain).1
          have hb : b ∈ S := hS a hx b hab
          rcases List.mem_cons.mp hy with rfl | hy
          · exact hx
          · exact ih b (List.chain'_cons.mp hchain).2 (by simp) hb y hy

theorem dfsLoop_complete {g : Graph V} {s t : V} :
    ∀ (fuel : Nat) (stack : List (V × Nat)) (visited : Finset V),
      DfsInv g s t stack visited →
      dfsLoop g t fuel stack visited = some none →
      ∀ (p : List V) (x : V), p.Chain' (has_edge g) → p.head? = some x →
        (x ∈ stack.map Prod.fst ∨ x ∈ visited) → p.getLast? ≠ some t := by
  intro fuel
  induction fuel with
  | zero => intro stack visited _ h; simp [dfsLoop] at h
  | succ n ih =>
      intro stack visited inv h p x hchain hhead hx
      match stack with
      | [] =>
          have hclosed : ∀ u ∈ visited, ∀ w ∈ nbrs g u, w ∈ visited := by
            intro u hu
            exact inv.closure u hu (by simp)
          have hxv : x ∈ visited := by
            rcases hx with h1 | h1
            · simp at h1
            · exact h1
          intro hlast
          have htp : t ∈ p := by
            have hpne : p ≠ [] := by
              intro hcon
              rw [hcon] at hlast
              simp at hlast
            have := List.getLast?_eq_getLast p hpne
            rw [this] at hlast
            have : p.getLast hpne = t := by simpa using hlast
            rw [← this]
            exact List.getLast_mem hpne
          exact inv.no_target (chain_closed hclosed p x hchain hhead hxv t htp)
      | (v, i) :: rest =>
          simp only [dfsLoop] at h
          by_cases hvt : v = t
          · rw [if_pos hvt] at h
            simp at h
          · rw [if_neg hvt] at h
            cases hfn : findNext (insert v visited) (nbrs g v) i with
            | none =>
                rw [hfn] at h
                refine ih _ _ (dfsInv_drop inv hvt hfn) h p x hchain hhead ?_
                rcases hx with h1 | h1
                · rw [List.map_cons] at h1
                  rcases List.mem_cons.mp h1 with h2 | h2
                  · refine Or.inr ?_
                    rw [h2]
                    exact Finset.mem_insert_self v visited
                  · exact Or.inl h2
                · exact Or.inr (Finset.mem_insert_of_mem h1)
            | some jw =>
                obtain ⟨j, w⟩ := jw
                rw [hfn] at h
                refine ih _ _ (dfsInv_push inv hvt hfn) h p x hchain hhead ?_
                rcases hx with h1 | h1
                · rw [List.map_cons] at h1
                  rcases List.mem_cons.mp h1 with h2 | h2
                  · refine Or.inr ?_
                    rw [h2]
                    exact Finset.mem_insert_self v visited
                  · refine Or.inl ?_
                    rw [List.map_cons, List.map_cons]
                    exact List.mem_cons_of_mem _ (List.mem_cons_of_mem _ h2)
                · exact Or.inr (Finset.mem_insert_of_mem h1)

theorem dfs_some_spec {g : Graph V} {s t : V} {p : List V} (h : dfs g s t = some p) :
    p.head? = some s ∧ p.getLast? = some t ∧ p.Nodup ∧ p.Chain' (has_edge g) := by
  unfold dfs at h
  cases hl : dfsLoop g t (dfsFuel g s) [(s, 0)] ∅ with
  | none =>
      rw [hl] at h
      simp at h
  | some r =>
      rw [hl] at h
      cases r with
      | none => simp at h
      | some q =>
          obtain rfl : q = p := by simpa using h
          exact dfsLoop_sound _ _ _ q (dfsInv_init g s t) hl

theorem dfs_none_not_reachable {g : Graph V} {s t : V} (h : dfs g s t = none) :
    ¬ Reachable g s t := by
  unfold dfs at h
  have hsome := dfsLoop_init_isSome g s t
  cases hl : dfsLoop g t (dfsFuel g s) [(s, 0)] ∅ with
  | none =>
      rw [hl] at hsome
      simp at hsome
  | some r =>
      rw [hl] at h
      cases r with
      | some q => simp at h
      | none =>
          rintro ⟨p, hh, hl2, hch⟩
          exact dfsLoop_complete _ _ _ (dfsInv_init g s t) hl p s hch hh (Or.inl (by simp)) hl2

theorem dfs_isSome_iff_reachable (g : Graph V) (s t : V) :
    (∃ p, dfs g s t = some p) ↔ Reachable g s t := by
  constructor
  · rintro ⟨p, hp⟩
    obtain ⟨hh, hl, -, hch⟩ := dfs_some_spec hp
    exact ⟨p, hh, hl, hch⟩
  · intro hr
    cases hd : dfs g s t with
    | none => exact absurd hr (dfs_none_not_reachable hd)
    | some p => exact ⟨p, rfl⟩

theorem dfs_self (g : Graph V) (a : V) : dfs g a a = some [a] := by
  unfold dfs
  have h2 : dfsFuel g a = (dfsFuel g a - 1) + 1 := by
    unfold dfsFuel
    omega
  rw [h2]
  simp [dfsLoop]

omit [DecidableEq V] in
theorem pathEdges_cons (a b : V) (tl : List V) :
    pathEdges (a :: b :: tl) = (a, b) :: pathEdges (b :: tl) := by
  simp [pathEdges]

omit [DecidableEq V] in
theorem pathEdges_mem {p : List V} {e : V × V} (h : e ∈ pathEdges p) :
    e.1 ∈ p ∧ e.2 ∈ p.tail := by
  obtain ⟨a, b⟩ := e
  have := List.of_mem_zip h
  exact this

theorem nbrs_augment_ne (x : V) :
    ∀ (es : List (V × V)) (st : Graph V × Graph V),
      (∀ e ∈ es, e.1 ≠ x) → (∀ e ∈ es, e.2 ≠ x) →
      nbrs (es.foldl augmentStep st).1 x = nbrs st.1 x := by
  intro es
  induction es with
  | nil => intro st _ _; rfl
  | cons e rest ih =>
      intro st hfst hsnd
      rw [List.foldl_cons]
      rw [ih _ (fun d hd => hfst d (List.mem_cons_of_mem _ hd))
        (fun d hd => hsnd d (List.mem_cons_of_mem _ hd))]
      show nbrs (remove_edge (add_edge st.1 e.2 e.1) e.1 e.2) x = nbrs st.1 x
      rw [nbrs_remove_edge_ne _ _ _ _ (Ne.symm (hfst e (by simp)))]
      rw [nbrs_add_edge_ne _ _ _ _ (Ne.symm (hsnd e (by simp)))]

theorem dfs_path_shape {g : Graph V} {s e : V} {p : List V} (hse : s ≠ e)
    (h : dfs g s e = some p) :
    ∃ p1 tl, p = s :: p1 :: tl ∧ p1 ∈ nbrs g s ∧ s ∉ p1 :: tl := by
  obtain ⟨hh, hl, hnd, hch⟩ := dfs_some_spec h
  cases p with
  | nil => simp at hh
  | cons a rest =>
      obtain rfl : a = s := by simpa using hh
      cases rest with
      | nil =>
          exact absurd (by simpa using hl) hse
      | cons p1 tl =>
          refine ⟨p1, tl, rfl, ?_, ?_⟩
          · exact (List.chain'_cons.mp hch).1
          · exact (List.nodup_cons.mp hnd).1

theorem outdeg_residual_augment {residual flow : Graph V} {s p1 : V} {tl : List V}
    (hs : s ∉ p1 :: tl) :
    nbrs ((pathEdges (s :: p1 :: tl)).foldl augmentStep (residual, flow)).1 s
      = (nbrs residual s).erase p1 := by
  rw [pathEdges_cons, List.foldl_cons]
  have hs1 : s ≠ p1 := fun hc => hs (hc ▸ List.mem_cons_self _ _)
  rw [nbrs_augment_ne s (pathEdges (p1 :: tl)) _ ?_ ?_]
  · show nbrs (remove_edge (add_edge residual p1 s) s p1) s = (nbrs residual s).erase p1
    rw [nbrs_remove_edge_self, nbrs_add_edge_ne _ _ _ _ hs1]
  · intro d hd hc
    exact hs (hc ▸ (pathEdges_mem hd).1)
  · intro d hd hc
    exact hs (hc ▸ List.mem_of_mem_tail (pathEdges_mem hd).2)

theorem max_flow_loop_no_exhaust {s e : V} (hse : s ≠ e) :
    ∀ (fuel : Nat) (residual flow : Graph V),
      (nbrs residual s).length < fuel →
      (max_flow_loop s e fuel residual flow).isSome := by
  intro fuel
  induction fuel with
  | zero => intro _ _ h; omega
  | succ n ih =>
      intro residual flow hlen
      simp only [max_flow_loop]
      cases hd : dfs residual s e with
      | none => simp
      | some p =>
          obtain ⟨p1, tl, rfl, hp1, hs⟩ := dfs_path_shape hse hd
          apply ih
          rw [outdeg_residual_augment hs]
          have := List.length_erase_of_mem hp1
          have hpos : 0 < (nbrs residual s).length := List.length_pos_of_mem hp1
          omega

theorem max_flow_isSome_of_ne {g : Graph V} {s e : V} (hse : s ≠ e) :
    (max_flow g s e).isSome := by
  unfold max_flow
  have h := max_flow_loop_no_exhaust hse ((nbrs g s).length + 1) g [] (by omega)
  cases hl : max_flow_loop s e ((nbrs g s).length + 1) g [] with
  | none =>
      rw [hl] at h
      simp at h
  | some f => simp

theorem max_flow_loop_self_eq_none (a : V) :
    ∀ (fuel : Nat) (residual flow : Graph V), max_flow_loop a a fuel residual flow = none := by
  intro fuel
  induction fuel with
  | zero => intro _ _; rfl
  | succ n ih =>
      intro residual flow
      simp only [max_flow_loop, dfs_self]
      simpa [pathEdges] using ih residual flow

theorem max_flow_self_eq_none (g : Graph V) (a : V) : max_flow g a a = none := by
  unfold max_flow
  rw [max_flow_loop_self_eq_none a _ g []]
  rfl

theorem max_flow_subset {g f : Graph V} {s e u v : V} (h : max_flow g s e = some f)
    (he : has_edge f u v) : has_edge g u v := by
  unfold max_flow at h
  obtain ⟨f0, hf0, heq⟩ := Option.map_eq_some'.mp h
  rw [← heq] at he
  exact ((mem_nbrs_flowFilter g f0 u v).mp he).2

omit [DecidableEq V] in
theorem path_count_balance [DecidableEq V] (v : V) :
    ∀ p : List V,
      (pathEdges p).countP (fun e => decide (e.1 = v))
        + (if p.getLast? = some v then 1 else 0)
      = (pathEdges p).countP (fun e => decide (e.2 = v))
        + (if p.head? = some v then 1 else 0) := by
  intro p
  induction p with
  | nil => simp [pathEdges]
  | cons a rest ih =>
      cases rest with
      | nil => simp [pathEdges]
      | cons b tl =>
          rw [pathEdges_cons, List.countP_cons, List.countP_cons, List.getLast?_cons_cons]
          have hh2 : (b :: tl).head? = some b := rfl
          rw [hh2] at ih
          by_cases hav : a = v <;> by_cases hbv : b = v <;>
            by_cases hlv : (b :: tl).getLast? = some v <;>
            simp [hav, hbv, hlv] at ih ⊢ <;> omega

omit [DecidableEq V] in
theorem pathEdges_nodup : ∀ {p : List V}, p.Nodup → (pathEdges p).Nodup := by
  intro p
  induction p with
  | nil => intro _; simp [pathEdges]
  | cons a rest ih =>
      intro h
      cases rest with
      | nil => simp [pathEdges]
      | cons b tl =>
          rw [pathEdges_cons]
          obtain ⟨ha, hrest⟩ := List.nodup_cons.mp h
          refine List.nodup_cons.mpr ⟨?_, ih hrest⟩
          intro hcon
          exact ha (pathEdges_mem hcon).1

omit [DecidableEq V] in
theorem flatMap_pathEdges_nodup :
    ∀ ps : List (List V), (∀ p ∈ ps, p.Nodup) → ps.Pairwise EdgeDisjoint →
      (ps.flatMap pathEdges).Nodup := by
  intro ps
  induction ps with
  | nil => intro _ _; simp
  | cons p rest ih =>
      intro hnd hpw
      rw [List.flatMap_cons, List.nodup_append]
      obtain ⟨hpw1, hpw2⟩ := List.pairwise_cons.mp hpw
      refine ⟨pathEdges_nodup (hnd p (by simp)), ih (fun q hq => hnd q (by simp [hq])) hpw2, ?_⟩
      intro e he hcon
      obtain ⟨q, hq, heq⟩ := List.mem_flatMap.mp hcon
      exact hpw1 q hq e he heq

omit [DecidableEq V] in
theorem flatMap_count_balance [DecidableEq V] {f : Graph V} {s t v : V}
    (hvs : v ≠ s) (hvt : v ≠ t) :
    ∀ ps : List (List V), (∀ p ∈ ps, IsPathFrom f s t p) →
      (ps.flatMap pathEdges).countP (fun e => decide (e.1 = v))
        = (ps.flatMap pathEdges).countP (fun e => decide (e.2 = v)) := by
  intro ps
  induction ps with
  | nil => simp
  | cons p rest ih =>
      intro hp
      rw [List.flatMap_cons, List.countP_append, List.countP_append]
      have hbal := path_count_balance v p
      obtain ⟨hh, hl, -⟩ := hp p (by simp)
      rw [hh, hl] at hbal
      rw [if_neg (by simpa using Ne.symm hvt), if_neg (by simpa using Ne.symm hvs)] at hbal
      rw [ih (fun q hq => hp q (by simp [hq]))]
      omega

theorem decomposes_count_eq {f : Graph V} {s t : V} {ps : List (List V)}
    (hdec : Decomposes f s t ps) (hnd : (edgeList f).Nodup)
    (v : V) (hvs : v ≠ s) (hvt : v ≠ t) :
    (edgeList f).countP (fun e => decide (e.1 = v))
      = (edgeList f).countP (fun e => decide (e.2 = v)) := by
  obtain ⟨hpaths, hdisj, hcov⟩ := hdec
  have hLnd : (ps.flatMap pathEdges).Nodup :=
    flatMap_pathEdges_nodup ps (fun p hp => (hpaths p hp).2) hdisj
  have hmem : ∀ e, e ∈ edgeList f ↔ e ∈ ps.flatMap pathEdges := by
    intro e
    rw [hcov e, List.mem_flatMap]
  have hperm : List.Perm (edgeList f) (ps.flatMap pathEdges) :=
    (List.perm_ext_iff_of_nodup hnd hLnd).mpr hmem
  rw [hperm.countP_eq, hperm.countP_eq]
  exact flatMap_count_balance hvs hvt ps (fun p hp => (hpaths p hp).1)

omit [DecidableEq V] in
theorem edgeList_cons (k : V) (ns : List V) (rest : Graph V) :
    edgeList ((k, ns) :: rest) = ns.map (fun v => (k, v)) ++ edgeList rest := by
  simp [edgeList]

omit [DecidableEq V] in
theorem edgeList_fst_mem {g : Graph V} {u v : V} (h : (u, v) ∈ edgeList g) :
    u ∈ g.map Prod.fst := by
  obtain ⟨kv, hkv, hmem⟩ := List.mem_flatMap.mp h
  obtain ⟨w, hw, heq⟩ := List.mem_map.mp hmem
  have h1 : kv.1 = u := congrArg Prod.fst heq
  exact List.mem_map.mpr ⟨kv, hkv, h1⟩

theorem has_edge_iff_mem_edgeList {g : Graph V} (hnd : (g.map Prod.fst).Nodup) (u v : V) :
    has_edge g u v ↔ (u, v) ∈ edgeList g := by
  induction g with
  | nil => simp [has_edge, nbrs, lookupAdj, edgeList]
  | cons kv rest ih =>
      obtain ⟨k, ns⟩ := kv
      rw [List.map_cons] at hnd
      obtain ⟨hk, hrest⟩ := List.nodup_cons.mp hnd
      by_cases hku : k = u
      · subst hku
        constructor
        · intro h
          have hv : v ∈ ns := by simpa [has_edge, nbrs, lookupAdj] using h
          refine List.mem_flatMap.mpr ⟨(k, ns), by simp, ?_⟩
          exact List.mem_map.mpr ⟨v, hv, rfl⟩
        · intro h
          rw [edgeList_cons] at h
          rcases List.mem_append.mp h with h1 | h1
          · obtain ⟨w, hw, heq⟩ := List.mem_map.mp h1
            have h2 : w = v := congrArg Prod.snd heq
            subst h2
            simpa [has_edge, nbrs, lookupAdj] using hw
          · exact absurd (edgeList_fst_mem h1) hk
      · have hhe : has_edge ((k, ns) :: rest) u v ↔ has_edge rest u v := by
          simp [has_edge, nbrs, lookupAdj, hku]
        have hel : ((u, v) ∈ edgeList ((k, ns) :: rest)) ↔ (u, v) ∈ edgeList rest := by
          rw [edgeList_cons, List.mem_append]
          constructor
          · intro h
            rcases h with h1 | h1
            · obtain ⟨w, hw, heq⟩ := List.mem_map.mp h1
              exact absurd (congrArg Prod.fst heq) hku
            · exact h1
          · exact Or.inr
        rw [hhe, hel]
        exact ih hrest

end AocGraph

namespace AocUGraph

theorem uadd_edge_isSome_iff (g : UGraph) (a b : Nat) :
    (uadd_edge g a b).isSome ↔ a < g.length := by
  unfold uadd_edge
  split_ifs with h <;> simp [h]

theorem uremove_edge_isSome_iff (g : UGraph) (a b : Nat) :
    (uremove_edge g a b).isSome ↔ a < g.length := by
  unfold uremove_edge
  split_ifs with h <;> simp [h]

end AocUGraph

namespace AocGraph

variable {V : Type} [DecidableEq V]

/-- Claim C1 (code bug): the claim that `max_flow` always returns a flow
whose edges decompose into edge-disjoint start-to-end paths is falsified by
the code.  On `antiGraph`, which contains the antiparallel pair `1⇄2`,
`max_flow 0 3` treats the original edge `2→1` and the residual reverse of
`1→2` as the same edge; the returned graph has five edges with in-degree 2
but out-degree 1 at the interior vertex 1, so flow conservation fails and
no decomposition into edge-disjoint paths from 0 to 3 exists. -/
theorem max_flow_antiparallel_not_decomposable :
    max_flow antiGraph 0 3 = some antiFlowResult ∧
    inDeg antiFlowResult 1 = 2 ∧ outCount antiFlowResult 1 = 1 ∧
    ¬ ∃ ps, Decomposes antiFlowResult 0 3 ps := by
  refine ⟨by decide, by decide, by decide, ?_⟩
  rintro ⟨ps, hdec⟩
  have h := decomposes_count_eq hdec (by decide) 1 (by decide) (by decide)
  have h1 : (edgeList antiFlowResult).countP (fun e => decide (e.1 = 1)) = 1 := by decide
  have h2 : (edgeList antiFlowResult).countP (fun e => decide (e.2 = 1)) = 2 := by decide
  rw [h1, h2] at h
  exact absurd h (by decide)

/-- Claim C2: every edge present in the graph returned by `max_flow` is an
edge of the original input graph; the final filtering step drops every
residual-only edge. -/
theorem max_flow_result_subset (g f : Graph V) (s e u v : V)
    (h : max_flow g s e = some f) (he : has_edge f u v) : has_edge g u v :=
  max_flow_subset h he

/-- Witness for C2: on the repository's test graph, the flow edge `0→1`
returned by `max_flow 0 5` is an edge of the original graph. -/
theorem max_flow_result_subset_witness : has_edge testGraph 0 1 :=
  max_flow_result_subset testGraph testFlowResult 0 5 0 1 (by decide) (by decide)

/-- Claim C3 counterexample: `max_flow` does not terminate for every pair
of vertices - with `start = end`, already on the empty graph, no amount of
fuel completes the augmentation loop. -/
theorem max_flow_self_no_termination : ¬ MaxFlowTerminates ([] : Graph Nat) 0 0 := by
  rintro ⟨n, f, h⟩
  rw [max_flow_loop_self_eq_none 0 n ([] : Graph Nat) []] at h
  exact Option.noConfusion h

/-- Claim C3 amended: whenever `start ≠ end`, the augmentation loop of
`max_flow` terminates (out-degree of `start` in the residual graph strictly
decreases with every augmentation) and `max_flow` returns a result. -/
theorem max_flow_terminates_of_ne (g : Graph V) (s e : V) (hse : s ≠ e) :
    MaxFlowTerminates g s e ∧ (max_flow g s e).isSome := by
  constructor
  · have h := max_flow_loop_no_exhaust hse ((nbrs g s).length + 1) g [] (by omega)
    cases hl : max_flow_loop s e ((nbrs g s).length + 1) g [] with
    | none =>
        rw [hl] at h
        simp at h
    | some f => exact ⟨_, f, hl⟩
  · exact max_flow_isSome_of_ne hse

/-- Witness for C3 amended, on the repository's flow test graph. -/
theorem max_flow_terminates_witness :
    MaxFlowTerminates testGraph 0 5 ∧ (max_flow testGraph 0 5).isSome :=
  max_flow_terminates_of_ne testGraph 0 5 (by decide)

/-- Claim C4 counterexample: the usize-indexed implementation is not total
for arbitrary vertex indices - `add_edge` on a vertex without an adjacency
entry indexes the vector out of bounds and panics (modelled as `none`). -/
theorem uadd_edge_out_of_range : AocUGraph.uadd_edge (AocUGraph.unew 0) 0 0 = none := by
  decide

/-- Claim C4 amended: the generic implementation's operations are total -
`remove_edge` is a no-op without an adjacency entry, `add_edge` requires no
pre-existing `to` - while the usize-indexed `add_edge` and `remove_edge`
return normally exactly when `from < n_vertices`. -/
theorem graph_ops_totality (W : Type) [DecidableEq W] :
    (∀ (g : Graph W) (u v : W), ¬ hasKey g u → remove_edge g u v = g) ∧
    (∀ (g : Graph W) (u v : W), has_edge (add_edge g u v) u v) ∧
    (∀ (g : AocUGraph.UGraph) (a b : Nat),
      (AocUGraph.uadd_edge g a b).isSome ↔ a < g.length) ∧
    (∀ (g : AocUGraph.UGraph) (a b : Nat),
      (AocUGraph.uremove_edge g a b).isSome ↔ a < g.length) := by
  refine ⟨remove_edge_not_hasKey, ?_, AocUGraph.uadd_edge_isSome_iff,
    AocUGraph.uremove_edge_isSome_iff⟩
  intro g u v
  exact (mem_nbrs_add_edge g u v u v).mpr (Or.inl ⟨rfl, rfl⟩)

/-- Witness for C4 amended at concrete instances. -/
theorem graph_ops_totality_witness :
    remove_edge ([(5, [7])] : Graph Nat) 0 1 = [(5, [7])] ∧
    has_edge (add_edge ([] : Graph Nat) 0 1) 0 1 ∧
    ((AocUGraph.uadd_edge (AocUGraph.unew 3) 2 9).isSome ↔ 2 < 3) :=
  ⟨(graph_ops_totality Nat).1 [(5, [7])] 0 1 (by decide),
   (graph_ops_totality Nat).2.1 [] 0 1,
   (graph_ops_totality Nat).2.2.1 (AocUGraph.unew 3) 2 9⟩

/-- Claim C5 (code bug): `max_flow(a, a)` does not return an empty flow
graph - it does not return at all.  `dfs(a, a)` always yields the path
`[a]`, augmenting along it changes nothing, and the loop repeats forever:
no fuel completes it, on any graph. -/
theorem max_flow_start_eq_end_diverges (W : Type) [DecidableEq W] :
    ∀ (g residual flow : Graph W) (a : W) (fuel : Nat),
      max_flow_loop a a fuel residual flow = none ∧ max_flow g a a = none :=
  fun g residual flow a fuel =>
    ⟨max_flow_loop_self_eq_none a fuel residual flow, max_flow_self_eq_none g a⟩

/-- Claim C6: `dfs(start, target)` returns a path precisely when a directed
path exists, and any returned path starts at `start`, ends at `target`,
repeats no vertex, and each consecutive pair is an edge of the graph. -/
theorem dfs_correct (W : Type) [DecidableEq W] (g : Graph W) (s t : W) :
    ((∃ p, dfs g s t = some p) ↔ Reachable g s t) ∧
    ∀ p, dfs g s t = some p →
      p.head? = some s ∧ p.getLast? = some t ∧ p.Nodup ∧ p.Chain' (has_edge g) :=
  ⟨dfs_isSome_iff_reachable g s t, fun _ hp => dfs_some_spec hp⟩

/-- Witness for C6 on the repository's dfs test graph: vertex 4 is
reachable from 0 and the returned path `[0, 1, 3, 4]` repeats no vertex. -/
theorem dfs_correct_witness :
    Reachable dfsTestGraph 0 4 ∧ ([0, 1, 3, 4] : List Nat).Nodup :=
  ⟨(dfs_correct Nat dfsTestGraph 0 4).1.mp ⟨[0, 1, 3, 4], by decide⟩,
   ((dfs_correct Nat dfsTestGraph 0 4).2 [0, 1, 3, 4] (by decide)).2.2.1⟩

/-- Claim C7: on the graph with edges 0→1, 0→2, 1→3, 1→4, 2→3, 3→5, 4→5,
`max_flow(0, 5)` yields out-degree 2 at vertex 0 and the edge set is
exactly 0→1, 0→2, 1→4, 2→3, 3→5, 4→5. -/
theorem max_flow_concrete_test :
    max_flow testGraph 0 5 = some testFlowResult ∧
    outDeg testFlowResult 0 = 2 ∧
    ∀ u v : Nat, has_edge testFlowResult u v ↔
      (u, v) ∈ [(0, 1), (0, 2), (1, 4), (2, 3), (3, 5), (4, 5)] := by
  refine ⟨by decide, by decide, ?_⟩
  intro u v
  rw [has_edge_iff_mem_edgeList (by decide)]
  exact List.Perm.mem_iff (by decide)

/-- Claim C8: `dfs(a, a)` returns the single-vertex path `[a]` on every
graph, whatever the outgoing edges of `a`, including when `a` has no
adjacency entry. -/
theorem dfs_start_eq_target (W : Type) [DecidableEq W] (g : Graph W) (a : W) :
    dfs g a a = some [a] :=
  dfs_self g a

/-- Claim C9 counterexample: when the edge is already present, adding and
then removing it deletes it - the round-trip fails on the graph already
holding the edge 0→1. -/
theorem add_remove_roundtrip_cex :
    ¬ adjEquiv (remove_edge (add_edge (add_edge ([] : Graph Nat) 0 1) 0 1) 0 1)
      (add_edge ([] : Graph Nat) 0 1) := by
  intro h
  have h2 := (h 0 1).mpr (by decide)
  exact absurd h2 (by decide)

/-- Claim C9 amended: for an edge not already present, adding then removing
it returns the graph to an equivalent adjacency state (absent keys count as
empty successor sets); `add_edge` is idempotent unconditionally. -/
theorem add_remove_roundtrip (W : Type) [DecidableEq W] (g : Graph W) (u v : W) :
    (¬ has_edge g u v → adjEquiv (remove_edge (add_edge g u v) u v) g) ∧
    add_edge (add_edge g u v) u v = add_edge g u v := by
  refine ⟨?_, add_edge_idem g u v⟩
  intro hne x y
  unfold has_edge at hne
  by_cases hx : x = u
  · subst hx
    unfold has_edge
    rw [nbrs_remove_edge_self, nbrs_add_edge_self, if_neg hne,
      List.erase_append_right _ hne]
    simp
  · unfold has_edge
    rw [nbrs_remove_edge_ne _ _ _ _ hx, nbrs_add_edge_ne _ _ _ _ hx]

/-- Witness for C9 amended: round trip on the empty graph. -/
theorem add_remove_roundtrip_witness :
    adjEquiv (remove_edge (add_edge ([] : Graph Nat) 0 1) 0 1) ([] : Graph Nat) ∧
    add_edge (add_edge ([] : Graph Nat) 0 1) 0 1 = add_edge ([] : Graph Nat) 0 1 :=
  ⟨(add_remove_roundtrip Nat [] 0 1).1 (by decide), (add_remove_roundtrip Nat [] 0 1).2⟩

/-- Claim C10: the derived structural equality distinguishes an absent
adjacency key from a key with an empty successor set - the empty graph and
the graph after `add_edge(0,1); remove_edge(0,1)` have the same edge
relation yet compare unequal - and `max_flow` can return graphs containing
keys with empty successor sets (vertex 2 of `max_flow cancelGraph 0 5`). -/
theorem derived_eq_distinguishes_empty_keys :
    remove_edge (add_edge ([] : Graph Nat) 0 1) 0 1 = [(0, [])] ∧
    ¬ rust_eq ([] : Graph Nat) [(0, [])] ∧
    adjEquiv ([] : Graph Nat) [(0, [])] ∧
    max_flow cancelGraph 0 5 = some cancelFlowResult ∧
    lookupAdj cancelFlowResult 2 = some [] := by
  refine ⟨by decide, ?_, ?_, by decide, by decide⟩
  · intro h
    have h2 := (h.1 0).mpr (by decide)
    exact absurd h2 (by decide)
  · intro u v
    constructor
    · intro h
      simp [has_edge, nbrs, lookupAdj] at h
    · intro h
      exfalso
      have hn : nbrs ([(0, [])] : Graph Nat) u = [] := by
        unfold nbrs lookupAdj
        split_ifs <;> rfl
      unfold has_edge at h
      rw [hn] at h
      simp at h

end AocGraph
